import Mathlib

/-!
# Verification of `luna_core` (`src/parser_core.rs`)

A shallow embedding of the expression-evaluating parser in
`src/parser_core.rs` and proofs about it.

The Rust code is a combined lexer / recursive-descent evaluator over a
mutable scan cursor.  We model it with explicit state passing:

* `Context` mirrors the Rust `Context` struct (`text : Vec<char>` becomes
  `List Char`, `cursor : usize` becomes `Nat`, `current_token : Token`).
* Functions that can panic return `Except`.  Panics of stateful methods
  carry the `Context` state at the moment of the panic
  (`Except (Err × Context) …`), so that statements about what the state
  looks like when a panic propagates (e.g. whether `look_ahead` restored
  the cursor) can be made.
* Machine integers: `usize` is `Nat` (the one place where `usize`
  subtraction can underflow — `text.len() - 1` on empty text in
  `get_next_token` — is modelled explicitly by the `lenUnderflow` error,
  since in Rust that line panics in debug mode and causes an
  out-of-bounds index panic in release mode).  `i32` arithmetic is `Int`
  with explicit range checks (`-2^31 ≤ n ≤ 2^31 - 1`), matching Rust
  debug-mode semantics where overflow, like division by zero, is a panic.
* The recursive loops (`eat_int`'s `loop`, the recursion in
  `eat_whitespace`, the `while` in `expr`) use an explicit fuel
  parameter; the top-level entry points pass `text.length + 1` fuel, and
  we prove the `outOfFuel` outcome unreachable (this is the termination
  theorem).
-/

namespace Luna

/-- Rust `enum TokenType`. -/
inductive TokenType where
  | Int
  | Op
  | SPC
  | EOF
  | NOP
deriving DecidableEq

/-- Rust `struct Token { token_type: TokenType, value: String }`. -/
structure Token where
  token_type : TokenType
  value : String
deriving DecidableEq

/-- Rust `struct Context { text: Vec<char>, cursor: usize, current_token: Token }`. -/
structure Context where
  text : List Char
  cursor : Nat
  current_token : Token
deriving DecidableEq

/-- The `NOP` sentinel token a fresh context starts with. -/
def NOP_TOKEN : Token := { token_type := TokenType.NOP, value := "NOP" }

/-- The `EOF` token produced past the end of input. -/
def EOF_TOKEN : Token := { token_type := TokenType.EOF, value := "EOF" }

/-- Rust `Context::new`: text from the string's chars, cursor `0`, `NOP` token. -/
def Context.new (program_text : String) : Context :=
  { text := program_text.data
    cursor := 0
    current_token := NOP_TOKEN }

/-- Rust `Context::set_text`: `self.text = text.chars().collect();` —
assigns only the `text` field. -/
def Context.set_text (ctx : Context) (text : String) : Context :=
  { ctx with text := text.data }

/-- Error outcomes.  Every `Err` but `outOfFuel` corresponds to a Rust
panic; `outOfFuel` is an artifact of the fuel embedding and is proved
unreachable. -/
inductive Err where
  /-- `text.len() - 1` underflows `usize` when the text is empty: a panic
  in debug mode, and an out-of-bounds `text[cursor]` panic in release
  mode (the wrapped bound `usize::MAX` makes the guard false). -/
  | lenUnderflow
  /-- `panic!("parse error")` — the catch-all arm of the character match. -/
  | parseError
  /-- The `panic!("Illegal OP …")` in `eat` on a token-kind mismatch,
  recording actual kind, expected kind and cursor.  (The Rust diagnostic
  additionally formats `self.text[self.cursor]`, which is itself an
  out-of-bounds panic when the cursor is at end of input.) -/
  | mismatch (actual expected : TokenType) (pos : Nat)
  /-- `buffer.parse::<i32>().unwrap()` fails (empty buffer, or value out
  of `i32` range). -/
  | intParseError
  /-- Division by zero. -/
  | divByZero
  /-- `i32` arithmetic overflow (a panic in debug builds). -/
  | overflow
  /-- The `panic!("illegal op …")` catch-all of the operator match in `expr`. -/
  | illegalOp (op : String)
  /-- Fuel exhaustion: a model artifact, proved unreachable. -/
  | outOfFuel
deriving DecidableEq

/-- Rust `char::is_whitespace` (the Unicode `White_Space` property),
spelled out over the 25 code points. -/
def rustIsWhitespace (c : Char) : Bool :=
  let n := c.toNat
  n = 0x09 || n = 0x0A || n = 0x0B || n = 0x0C || n = 0x0D || n = 0x20 ||
  n = 0x85 || n = 0xA0 || n = 0x1680 || (0x2000 ≤ n && n ≤ 0x200A) ||
  n = 0x2028 || n = 0x2029 || n = 0x202F || n = 0x205F || n = 0x3000

/-- The `match text[self.cursor] { … }` body of `get_next_token`,
factored over the scrutinized character.  Arms in source order: decimal
digit, whitespace, `'+'`, `'-'`, `'/'`, `'*'`, catch-all panic. -/
def classifyChar (c : Char) : Except Err Token :=
  if c.isDigit then Except.ok { token_type := TokenType.Int, value := c.toString }
  else if rustIsWhitespace c then Except.ok { token_type := TokenType.SPC, value := "SPC" }
  else if c = '+' then Except.ok { token_type := TokenType.Op, value := "+" }
  else if c = '-' then Except.ok { token_type := TokenType.Op, value := "-" }
  else if c = '/' then Except.ok { token_type := TokenType.Op, value := "/" }
  else if c = '*' then Except.ok { token_type := TokenType.Op, value := "*" }
  else Except.error Err.parseError

/-- Rust `Context::get_next_token`: classify the character at the cursor
without mutating state.  `if self.cursor > (text.len() - 1)` is an EOF
check, except that on empty text the `usize` subtraction underflows (see
`Err.lenUnderflow`). -/
def get_next_token (ctx : Context) : Except Err Token :=
  if ctx.text.length = 0 then Except.error Err.lenUnderflow
  else if ctx.cursor > ctx.text.length - 1 then Except.ok EOF_TOKEN
  else classifyChar (ctx.text.getD ctx.cursor ' ')

/-- `get_next_token` of a context assembled from a text and a cursor (it
never reads `current_token`): convenient for stating lemmas. -/
def tokenAt (text : List Char) (i : Nat) : Except Err Token :=
  get_next_token { text := text, cursor := i, current_token := NOP_TOKEN }

/-- Rust `Context::eat`: on a token-kind match, advance the cursor and
rescan into `current_token`; otherwise panic with the mismatch
diagnostic.  A panic inside the rescan propagates with the cursor
already advanced. -/
def eat (ctx : Context) (expect_type : TokenType) : Except (Err × Context) Context :=
  if ctx.current_token.token_type = expect_type then
    let c1 : Context := { ctx with cursor := ctx.cursor + 1 }
    match get_next_token c1 with
    | Except.ok t => Except.ok { c1 with current_token := t }
    | Except.error e => Except.error (e, c1)
  else
    Except.error (Err.mismatch ctx.current_token.token_type expect_type ctx.cursor, ctx)

/-- Rust `Context::look_ahead`: advance the cursor by `by`, scan, then
subtract `by` again.  If the scan panics, the subtraction never runs and
the panic propagates with the cursor still advanced. -/
def look_ahead (ctx : Context) (by_ : Nat) : Except (Err × Context) (Token × Context) :=
  let c1 : Context := { ctx with cursor := ctx.cursor + by_ }
  match get_next_token c1 with
  | Except.ok ahead => Except.ok (ahead, { c1 with cursor := c1.cursor - by_ })
  | Except.error e => Except.error (e, c1)

/-- The `loop` in Rust `Context::eat_int`: while the current token is an
`Int`, push its value onto the buffer and eat it. -/
def eat_intAux (fuel : Nat) (ctx : Context) (buffer : String) :
    Except (Err × Context) (String × Context) :=
  match fuel with
  | 0 => Except.error (Err.outOfFuel, ctx)
  | fuel + 1 =>
    if ctx.current_token.token_type = TokenType.Int then
      match eat ctx TokenType.Int with
      | Except.ok c1 => eat_intAux fuel c1 (buffer ++ ctx.current_token.value)
      | Except.error e => Except.error e
    else
      Except.ok (buffer, ctx)

/-- The numeric value of a decimal digit string. -/
def digitsVal (l : List Char) : Nat :=
  l.foldl (fun a c => a * 10 + (c.toNat - 48)) 0

/-- `buffer.parse::<i32>().unwrap()` for the buffers `eat_int` builds.
Those buffers are concatenations of `Int`-token values, i.e. strings of
decimal digits, and Rust's parse succeeds on a digit string exactly when
its value fits in `i32` (no sign is ever present).  Parse of an empty or
non-digit string fails. -/
def parse_i32 (buffer : String) : Except Err Int :=
  if buffer.data ≠ [] ∧ buffer.data.all Char.isDigit = true ∧
      digitsVal buffer.data ≤ 2147483647 then
    Except.ok (digitsVal buffer.data : Int)
  else Except.error Err.intParseError

/-- Rust `Context::eat_int`: run the digit loop, then parse the buffer. -/
def eat_int (fuel : Nat) (ctx : Context) : Except (Err × Context) (Int × Context) :=
  match eat_intAux fuel ctx "" with
  | Except.error e => Except.error e
  | Except.ok (buffer, c1) =>
    match parse_i32 buffer with
    | Except.ok v => Except.ok (v, c1)
    | Except.error e => Except.error (e, c1)

/-- Rust `Context::eat_whitespace`: if the current token is whitespace,
eat it, and if the token one position past the (new) cursor is also
whitespace, recurse. -/
def eat_whitespace (fuel : Nat) (ctx : Context) : Except (Err × Context) Context :=
  match fuel with
  | 0 => Except.error (Err.outOfFuel, ctx)
  | fuel + 1 =>
    if ctx.current_token.token_type = TokenType.SPC then
      match eat ctx TokenType.SPC with
      | Except.error e => Except.error e
      | Except.ok c1 =>
        match look_ahead c1 1 with
        | Except.error e => Except.error e
        | Except.ok (ahead, c2) =>
          if ahead.token_type = TokenType.SPC then eat_whitespace fuel c2
          else Except.ok c2
    else
      Except.ok ctx

/-- Rust `Context::term`: `eat_whitespace` then `eat_int`. -/
def term (fuel : Nat) (ctx : Context) : Except (Err × Context) (Int × Context) :=
  match eat_whitespace fuel ctx with
  | Except.error e => Except.error e
  | Except.ok c1 => eat_int fuel c1

/-- `i32` range check: Rust debug-mode arithmetic panics outside
`[-2^31, 2^31 - 1]`. -/
def checked_i32 (n : Int) : Except Err Int :=
  if -2147483648 ≤ n ∧ n ≤ 2147483647 then Except.ok n else Except.error Err.overflow

/-- Rust `i32` division: panics on a zero divisor; truncates toward
zero; `i32::MIN / -1` overflows. -/
def div_i32 (a b : Int) : Except Err Int :=
  if b = 0 then Except.error Err.divByZero else checked_i32 (Int.tdiv a b)

/-- Attach the context reached so far to a pure arithmetic outcome. -/
def withCtx (x : Except Err Int) (ctx : Context) : Except (Err × Context) (Int × Context) :=
  match x with
  | Except.ok v => Except.ok (v, ctx)
  | Except.error e => Except.error (e, ctx)

/-- The `while self.current_token.token_type == TokenType::Op { … }` loop
of Rust `Context::expr`: capture the operator value, eat the operator,
then per arm evaluate `term` and fold it into the accumulator with the
arm's `i32` operation (catch-all arm: `panic!("illegal op …")`, which in
Rust fires before `term` runs). -/
def exprLoop (fuel : Nat) (r : Int) (ctx : Context) :
    Except (Err × Context) (Int × Context) :=
  match fuel with
  | 0 => Except.error (Err.outOfFuel, ctx)
  | fuel + 1 =>
    if ctx.current_token.token_type = TokenType.Op then
      let op := ctx.current_token.value
      match eat ctx TokenType.Op with
      | Except.error e => Except.error e
      | Except.ok c1 =>
        let tres := term (c1.text.length + 1) c1
        let step : Except (Err × Context) (Int × Context) :=
          match op with
          | "+" =>
            match tres with
            | Except.error e => Except.error e
            | Except.ok (v, c2) => withCtx (checked_i32 (r + v)) c2
          | "-" =>
            match tres with
            | Except.error e => Except.error e
            | Except.ok (v, c2) => withCtx (checked_i32 (r - v)) c2
          | "/" =>
            match tres with
            | Except.error e => Except.error e
            | Except.ok (v, c2) => withCtx (div_i32 r v) c2
          | "*" =>
            match tres with
            | Except.error e => Except.error e
            | Except.ok (v, c2) => withCtx (checked_i32 (r * v)) c2
          | _ => Except.error (Err.illegalOp op, c1)
        match step with
        | Except.error e => Except.error e
        | Except.ok (r', c2) => exprLoop fuel r' c2
    else
      Except.ok (r, ctx)

/-- Rust `Context::expr`: scan the first token into `current_token`
(unconditionally), evaluate an initial `term`, then run the operator
loop. -/
def expr (ctx : Context) : Except (Err × Context) (Int × Context) :=
  match get_next_token ctx with
  | Except.error e => Except.error (e, ctx)
  | Except.ok t =>
    let c0 : Context := { ctx with current_token := t }
    match term (c0.text.length + 1) c0 with
    | Except.error e => Except.error e
    | Except.ok (r, c1) => exprLoop (c1.text.length + 1) r c1

/-- Drop the final context, keeping the value or panic kind. -/
def runResult (r : Except (Err × Context) (Int × Context)) : Except Err Int :=
  match r with
  | Except.ok (v, _) => Except.ok v
  | Except.error (e, _) => Except.error e

/-- The spec's `evaluate`: construct a fresh `Context` over the string
and run `expr`. -/
def evaluate (s : String) : Except Err Int :=
  runResult (expr (Context.new s))

/-- Is this error the fuel artifact? -/
def Err.isOutOfFuel : Err → Bool
  | Err.outOfFuel => true
  | _ => false

/-- Is this error the `eat` token-kind-mismatch panic? -/
def Err.isMismatch : Err → Bool
  | Err.mismatch _ _ _ => true
  | _ => false

/-- Does the run end in an error satisfying `f`? -/
def resultFlag (f : Err → Bool) (r : Except (Err × Context) (Int × Context)) : Bool :=
  match r with
  | Except.error (e, _) => f e
  | Except.ok _ => false

/-- The cached `current_token` agrees with a fresh scan at the cursor. -/
def Synced (ctx : Context) : Prop :=
  tokenAt ctx.text ctx.cursor = Except.ok ctx.current_token

/-- An error that is neither the fuel artifact nor the `eat` mismatch
panic: a genuine panic of the Rust code other than `eat`'s. -/
def GoodErr (e : Err) : Prop :=
  e.isOutOfFuel = false ∧ e.isMismatch = false

/-! ## Specification-side definitions (for the refinement claims)

These follow the spec's words, not the source, and exist to be compared
with the code model. -/

/-- Is `c` one of the four operator characters? -/
def isOpChar (c : Char) : Bool :=
  c = '+' || c = '-' || c = '/' || c = '*'

/-- Is `t` a non-empty string of decimal digits? -/
def isDigitStr (t : String) : Bool :=
  !t.data.isEmpty && t.data.all Char.isDigit

/-- The characters of `op1 t1 op2 t2 … opn tn` (terms and single-char
operators concatenated, no whitespace). -/
def encodePairs (ps : List (Char × String)) : List Char :=
  match ps with
  | [] => []
  | (c, t) :: ps => c :: (t.data ++ encodePairs ps)

/-- The source text `t0 op1 t1 … opn tn`. -/
def mkExpr (t0 : String) (ps : List (Char × String)) : String :=
  String.mk (t0.data ++ encodePairs ps)

/-- Modelled from the spec: one step of the claimed strict left fold,
`r op v` in checked 32-bit arithmetic. -/
def specApplyOp (c : Char) (r v : Int) : Except Err Int :=
  if c = '+' then checked_i32 (r + v)
  else if c = '-' then checked_i32 (r - v)
  else if c = '/' then div_i32 r v
  else if c = '*' then checked_i32 (r * v)
  else Except.error (Err.illegalOp c.toString)

/-- Modelled from the spec: the strict left fold
`(((t0 op1 t1) op2 t2) … opn tn)` over 32-bit integers, each term parsed
as an `i32`. -/
def specFoldGo (r : Int) (ps : List (Char × String)) : Except Err Int :=
  match ps with
  | [] => Except.ok r
  | (c, t) :: ps =>
    match parse_i32 t with
    | Except.error e => Except.error e
    | Except.ok v =>
      match specApplyOp c r v with
      | Except.error e => Except.error e
      | Except.ok r' => specFoldGo r' ps

/-- Modelled from the spec: parse `t0`, then fold the `(op, term)` pairs
from the left. -/
def specFold (t0 : String) (ps : List (Char × String)) : Except Err Int :=
  match parse_i32 t0 with
  | Except.error e => Except.error e
  | Except.ok v0 => specFoldGo v0 ps

/-! ## List and string helpers -/

theorem drop_succ_of_drop_cons {α : Type} {l : List α} {i : Nat} {c : α} {t : List α}
    (h : l.drop i = c :: t) : l.drop (i + 1) = t := by
  have h2 : l.drop (i + 1) = (l.drop i).drop 1 := by rw [List.drop_drop]
  rw [h2, h, List.drop_one, List.tail_cons]

theorem getD_of_drop_cons {α : Type} {l : List α} {i : Nat} {c : α} {t : List α} (d : α)
    (h : l.drop i = c :: t) : l.getD i d = c := by
  induction l generalizing i with
  | nil => simp at h
  | cons x xs ih =>
    cases i with
    | zero =>
      simp only [List.drop_zero] at h
      rw [List.cons.injEq] at h
      simp [List.getD, h.1]
    | succ i =>
      simp only [List.drop_succ_cons] at h
      simpa [List.getD] using ih h

theorem lt_length_of_drop_cons {α : Type} {l : List α} {i : Nat} {c : α} {t : List α}
    (h : l.drop i = c :: t) : i < l.length := by
  have := List.length_drop i l
  rw [h] at this
  simp only [List.length_cons] at this
  omega

theorem length_le_of_drop_nil {α : Type} {l : List α} {i : Nat}
    (h : l.drop i = []) : l.length ≤ i := by
  have := List.length_drop i l
  rw [h] at this
  simp only [List.length_nil] at this
  omega

theorem drop_of_drop_append {α : Type} (a : List α) {l b : List α} {i : Nat}
    (h : l.drop i = a ++ b) : l.drop (i + a.length) = b := by
  induction a generalizing i with
  | nil => simpa using h
  | cons c a ih =>
    rw [List.cons_append] at h
    have := ih (drop_succ_of_drop_cons h)
    rw [List.length_cons]
    have harith : i + (a.length + 1) = i + 1 + a.length := by omega
    rw [harith]
    exact this

theorem string_data_eq {a b : String} (h : a.data = b.data) : a = b := by
  cases a; cases b; exact congrArg String.mk h

theorem string_append_data (a b : String) : (a ++ b).data = a.data ++ b.data := rfl

/-! ## Tokenizer characterization -/

theorem get_next_token_eq_tokenAt (ctx : Context) :
    get_next_token ctx = tokenAt ctx.text ctx.cursor := rfl

theorem tokenAt_nil (i : Nat) : tokenAt [] i = Except.error Err.lenUnderflow := rfl

theorem tokenAt_of_drop_nil {text : List Char} {i : Nat} (hne : text.length ≠ 0)
    (h : text.drop i = []) : tokenAt text i = Except.ok EOF_TOKEN := by
  have hlen : text.length ≤ i := length_le_of_drop_nil h
  unfold tokenAt get_next_token
  simp only
  rw [if_neg hne, if_pos (by omega)]

theorem tokenAt_of_drop_cons {text : List Char} {i : Nat} {c : Char} {t : List Char}
    (h : text.drop i = c :: t) : tokenAt text i = classifyChar c := by
  have hlt : i < text.length := lt_length_of_drop_cons h
  unfold tokenAt get_next_token
  simp only
  rw [if_neg (by omega), if_neg (by omega), getD_of_drop_cons ' ' h]

theorem classifyChar_digit {c : Char} (h : c.isDigit = true) :
    classifyChar c = Except.ok { token_type := TokenType.Int, value := c.toString } := by
  unfold classifyChar
  rw [if_pos h]

theorem isDigit_eq_toNat (c : Char) : c.isDigit = (48 ≤ c.toNat && c.toNat ≤ 57) := by
  simp [Char.isDigit, Char.toNat, UInt32.le_def, Fin.le_def]
  rfl

theorem ws_not_digit {c : Char} (h : rustIsWhitespace c = true) : c.isDigit = false := by
  rw [isDigit_eq_toNat]
  unfold rustIsWhitespace at h
  simp only [Bool.or_eq_true, decide_eq_true_eq, Bool.and_eq_true] at h
  simp only [Bool.and_eq_false_iff, decide_eq_false_iff_not, Nat.not_le]
  omega

theorem classifyChar_ws {c : Char} (h : rustIsWhitespace c = true) :
    classifyChar c = Except.ok { token_type := TokenType.SPC, value := "SPC" } := by
  unfold classifyChar
  rw [ws_not_digit h]
  simp only [Bool.false_eq_true, if_false]
  rw [if_pos h]

theorem classifyChar_op {c : Char} (h : isOpChar c = true) :
    classifyChar c = Except.ok { token_type := TokenType.Op, value := c.toString } := by
  unfold isOpChar at h
  simp only [Bool.or_eq_true, decide_eq_true_eq] at h
  rcases h with ((h | h) | h) | h <;> subst h <;> rfl

theorem classifyChar_error {c : Char} {e : Err} (h : classifyChar c = Except.error e) :
    e = Err.parseError := by
  unfold classifyChar at h
  split at h
  · exact absurd h (by simp)
  split at h
  · exact absurd h (by simp)
  split at h
  · exact absurd h (by simp)
  split at h
  · exact absurd h (by simp)
  split at h
  · exact absurd h (by simp)
  split at h
  · exact absurd h (by simp)
  · rw [Except.error.injEq] at h
    exact h.symm

theorem tokenAt_error {text : List Char} {i : Nat} {e : Err}
    (h : tokenAt text i = Except.error e) :
    e = Err.lenUnderflow ∨ e = Err.parseError := by
  unfold tokenAt get_next_token at h
  simp only at h
  split at h
  · rw [Except.error.injEq] at h
    exact Or.inl h.symm
  split at h
  · exact absurd h (by simp)
  · exact Or.inr (classifyChar_error h)

theorem drop_eq_getD_cons {α : Type} {l : List α} {i : Nat} (d : α) (h : i < l.length) :
    l.drop i = l.getD i d :: l.drop (i + 1) := by
  induction l generalizing i with
  | nil => simp at h
  | cons x xs ih =>
    cases i with
    | zero => simp [List.getD]
    | succ i =>
      simp only [List.length_cons] at h
      simpa [List.getD] using ih (by omega)

theorem classifyChar_ok_cases {c : Char} {tok : Token}
    (h : classifyChar c = Except.ok tok) :
    (c.isDigit = true ∧ tok = { token_type := TokenType.Int, value := c.toString }) ∨
    (rustIsWhitespace c = true ∧ tok = { token_type := TokenType.SPC, value := "SPC" }) ∨
    (isOpChar c = true ∧ tok = { token_type := TokenType.Op, value := c.toString }) := by
  unfold classifyChar at h
  split_ifs at h with h1 h2 h3 h4 h5 h6 <;>
    rw [Except.ok.injEq] at h
  · exact Or.inl ⟨h1, h.symm⟩
  · exact Or.inr (Or.inl ⟨h2, h.symm⟩)
  · subst h3
    exact Or.inr (Or.inr ⟨rfl, h.symm⟩)
  · subst h4
    exact Or.inr (Or.inr ⟨rfl, h.symm⟩)
  · subst h5
    exact Or.inr (Or.inr ⟨rfl, h.symm⟩)
  · subst h6
    exact Or.inr (Or.inr ⟨rfl, h.symm⟩)

theorem tokenAt_ok_cases {text : List Char} {i : Nat} {tok : Token}
    (h : tokenAt text i = Except.ok tok) :
    (text.length ≠ 0 ∧ text.length ≤ i ∧ tok = EOF_TOKEN) ∨
    (∃ c t, text.drop i = c :: t ∧ classifyChar c = Except.ok tok) := by
  unfold tokenAt get_next_token at h
  simp only at h
  split_ifs at h with h1 h2
  · rw [Except.ok.injEq] at h
    exact Or.inl ⟨h1, by omega, h.symm⟩
  · exact Or.inr ⟨text.getD i ' ', text.drop (i + 1), drop_eq_getD_cons ' ' (by omega), h⟩

theorem tokenAt_int_char {text : List Char} {i : Nat} {tok : Token}
    (h : tokenAt text i = Except.ok tok) (ht : tok.token_type = TokenType.Int) :
    ∃ c t, text.drop i = c :: t ∧ c.isDigit = true ∧
      tok = { token_type := TokenType.Int, value := c.toString } := by
  rcases tokenAt_ok_cases h with ⟨_, _, heq⟩ | ⟨c, t, hdrop, hcl⟩
  · rw [heq] at ht
    exact absurd ht (by simp [EOF_TOKEN])
  rcases classifyChar_ok_cases hcl with ⟨hd, heq⟩ | ⟨_, heq⟩ | ⟨_, heq⟩
  · exact ⟨c, t, hdrop, hd, heq⟩
  · rw [heq] at ht
    exact absurd ht (by simp)
  · rw [heq] at ht
    exact absurd ht (by simp)

theorem tokenAt_spc_char {text : List Char} {i : Nat} {tok : Token}
    (h : tokenAt text i = Except.ok tok) (ht : tok.token_type = TokenType.SPC) :
    ∃ c t, text.drop i = c :: t ∧ rustIsWhitespace c = true ∧
      tok = { token_type := TokenType.SPC, value := "SPC" } := by
  rcases tokenAt_ok_cases h with ⟨_, _, heq⟩ | ⟨c, t, hdrop, hcl⟩
  · rw [heq] at ht
    exact absurd ht (by simp [EOF_TOKEN])
  rcases classifyChar_ok_cases hcl with ⟨_, heq⟩ | ⟨hw, heq⟩ | ⟨_, heq⟩
  · rw [heq] at ht
    exact absurd ht (by simp)
  · exact ⟨c, t, hdrop, hw, heq⟩
  · rw [heq] at ht
    exact absurd ht (by simp)

theorem tokenAt_op_char {text : List Char} {i : Nat} {tok : Token}
    (h : tokenAt text i = Except.ok tok) (ht : tok.token_type = TokenType.Op) :
    ∃ c t, text.drop i = c :: t ∧ isOpChar c = true ∧
      tok = { token_type := TokenType.Op, value := c.toString } := by
  rcases tokenAt_ok_cases h with ⟨_, _, heq⟩ | ⟨c, t, hdrop, hcl⟩
  · rw [heq] at ht
    exact absurd ht (by simp [EOF_TOKEN])
  rcases classifyChar_ok_cases hcl with ⟨_, heq⟩ | ⟨_, heq⟩ | ⟨ho, heq⟩
  · rw [heq] at ht
    exact absurd ht (by simp)
  · rw [heq] at ht
    exact absurd ht (by simp)
  · exact ⟨c, t, hdrop, ho, heq⟩

/-! ## `eat` and `look_ahead` characterizations -/

theorem eat_eq (text : List Char) (s : Nat) (tok : Token) (k : TokenType) :
    eat ⟨text, s, tok⟩ k =
      if tok.token_type = k then
        match tokenAt text (s + 1) with
        | Except.ok t => Except.ok ⟨text, s + 1, t⟩
        | Except.error e => Except.error (e, ⟨text, s + 1, tok⟩)
      else Except.error (Err.mismatch tok.token_type k s, ⟨text, s, tok⟩) := by
  unfold eat
  rfl

theorem look_ahead_eq (text : List Char) (s by_ : Nat) (tok : Token) :
    look_ahead ⟨text, s, tok⟩ by_ =
      match tokenAt text (s + by_) with
      | Except.ok t => Except.ok (t, ⟨text, s, tok⟩)
      | Except.error e => Except.error (e, ⟨text, s + by_, tok⟩) := by
  unfold look_ahead
  simp only [get_next_token_eq_tokenAt]
  cases tokenAt text (s + by_) with
  | ok t => simp [Nat.add_sub_cancel]
  | error e => rfl

/-- Whenever `look_ahead` returns normally, the context is fully
restored and the token is the scan at `cursor + by`. -/
theorem look_ahead_ok_state {ctx : Context} {by_ : Nat} {t : Token} {c' : Context}
    (h : look_ahead ctx by_ = Except.ok (t, c')) :
    c' = ctx ∧ tokenAt ctx.text (ctx.cursor + by_) = Except.ok t := by
  obtain ⟨text, s, tok⟩ := ctx
  rw [look_ahead_eq] at h
  simp only at h ⊢
  cases htok : tokenAt text (s + by_) with
  | ok a =>
    rw [htok] at h
    simp only [Except.ok.injEq, Prod.mk.injEq] at h
    obtain ⟨hat, hc⟩ := h
    subst hat
    exact ⟨hc.symm, rfl⟩
  | error e =>
    rw [htok] at h
    exact absurd h (by simp)

/-! ## `eat_int` on a digit run -/

theorem char_toString_data (c : Char) : (Char.toString c).data = [c] := rfl

theorem tokenAt_digits_ok {text rest ds : List Char} {s : Nat} {tstop : Token}
    (hall : ds.all Char.isDigit = true) (hdrop : text.drop s = ds ++ rest)
    (htstop : tokenAt text (s + ds.length) = Except.ok tstop) :
    ∃ t, tokenAt text s = Except.ok t := by
  cases ds with
  | nil => exact ⟨tstop, by simpa using htstop⟩
  | cons d ds =>
    rw [List.cons_append] at hdrop
    refine ⟨_, tokenAt_of_drop_cons hdrop ▸ classifyChar_digit ?_⟩
    simp only [List.all_cons, Bool.and_eq_true] at hall
    exact hall.1

theorem eat_intAux_run (ds : List Char) :
    ∀ (fuel s : Nat) (text rest : List Char) (tok tstop : Token) (buffer : String),
      ds.all Char.isDigit = true →
      text.drop s = ds ++ rest →
      tokenAt text s = Except.ok tok →
      tokenAt text (s + ds.length) = Except.ok tstop →
      tstop.token_type ≠ TokenType.Int →
      ds.length + 1 ≤ fuel →
      eat_intAux fuel ⟨text, s, tok⟩ buffer =
        Except.ok (buffer ++ String.mk ds, ⟨text, s + ds.length, tstop⟩) := by
  induction ds with
  | nil =>
    intro fuel s text rest tok tstop buffer hall hdrop htok htstop hni hfuel
    simp only [List.length_nil, Nat.add_zero] at htstop ⊢
    rw [htok, Except.ok.injEq] at htstop
    subst htstop
    cases fuel with
    | zero => omega
    | succ fuel =>
      simp only [eat_intAux]
      rw [if_neg hni]
      have hbuf : buffer ++ String.mk [] = buffer :=
        string_data_eq (by simp [string_append_data])
      rw [hbuf]
  | cons d ds ih =>
    intro fuel s text rest tok tstop buffer hall hdrop htok htstop hni hfuel
    simp only [List.all_cons, Bool.and_eq_true] at hall
    obtain ⟨hd, hall⟩ := hall
    rw [List.cons_append] at hdrop
    have htokv : tok = { token_type := TokenType.Int, value := d.toString } := by
      have := tokenAt_of_drop_cons hdrop
      rw [classifyChar_digit hd, htok, Except.ok.injEq] at this
      exact this
    have hdrop1 : text.drop (s + 1) = ds ++ rest := drop_succ_of_drop_cons hdrop
    have harith : s + (ds.length + 1) = s + 1 + ds.length := by omega
    simp only [List.length_cons] at htstop
    rw [harith] at htstop
    obtain ⟨t1, ht1⟩ := tokenAt_digits_ok hall hdrop1 htstop
    cases fuel with
    | zero => omega
    | succ fuel =>
      simp only [eat_intAux]
      rw [if_pos (by rw [htokv]), eat_eq, if_pos (by rw [htokv]), ht1]
      simp only
      have := ih fuel (s + 1) text rest t1 tstop (buffer ++ tok.value)
        hall hdrop1 ht1 htstop hni (by simp only [List.length_cons] at hfuel; omega)
      rw [this]
      have hbuf : buffer ++ tok.value ++ String.mk ds = buffer ++ String.mk (d :: ds) :=
        string_data_eq (by simp [string_append_data, htokv, char_toString_data])
      rw [hbuf, List.length_cons, harith]

theorem string_mk_data (t : String) : String.mk t.data = t := by
  cases t
  rfl

theorem empty_append (t : String) : ("" ++ t : String) = t :=
  string_data_eq (by simp [string_append_data])

theorem eat_int_run {ds text rest : List Char} {s fuel : Nat} {tok tstop : Token}
    (hall : ds.all Char.isDigit = true)
    (hdrop : text.drop s = ds ++ rest)
    (htok : tokenAt text s = Except.ok tok)
    (htstop : tokenAt text (s + ds.length) = Except.ok tstop)
    (hni : tstop.token_type ≠ TokenType.Int)
    (hfuel : ds.length + 1 ≤ fuel) :
    eat_int fuel ⟨text, s, tok⟩ =
      match parse_i32 (String.mk ds) with
      | Except.ok v => Except.ok (v, ⟨text, s + ds.length, tstop⟩)
      | Except.error e => Except.error (e, ⟨text, s + ds.length, tstop⟩) := by
  unfold eat_int
  rw [eat_intAux_run ds fuel s text rest tok tstop "" hall hdrop htok htstop hni hfuel,
    empty_append]

theorem eat_whitespace_noop {fuel : Nat} {ctx : Context}
    (hfuel : 1 ≤ fuel) (h : ctx.current_token.token_type ≠ TokenType.SPC) :
    eat_whitespace fuel ctx = Except.ok ctx := by
  cases fuel with
  | zero => omega
  | succ fuel =>
    simp only [eat_whitespace]
    rw [if_neg h]

theorem term_digits {ds text rest : List Char} {s fuel : Nat} {tok tstop : Token}
    (hall : ds.all Char.isDigit = true)
    (hdrop : text.drop s = ds ++ rest)
    (htok : tokenAt text s = Except.ok tok)
    (hnospc : tok.token_type ≠ TokenType.SPC)
    (htstop : tokenAt text (s + ds.length) = Except.ok tstop)
    (hni : tstop.token_type ≠ TokenType.Int)
    (hfuel : ds.length + 1 ≤ fuel) :
    term fuel ⟨text, s, tok⟩ =
      match parse_i32 (String.mk ds) with
      | Except.ok v => Except.ok (v, ⟨text, s + ds.length, tstop⟩)
      | Except.error e => Except.error (e, ⟨text, s + ds.length, tstop⟩) := by
  unfold term
  rw [eat_whitespace_noop (by omega) hnospc]
  exact eat_int_run hall hdrop htok htstop hni hfuel

/-- Unfolding of one iteration of the operator loop when the current
token is a (genuine) operator token for the character `c`. -/
theorem exprLoop_step (fuel : Nat) (r : Int) (text : List Char) (s : Nat) {tok : Token}
    {c : Char} (hty : tok.token_type = TokenType.Op) (hval : tok.value = c.toString)
    (hop : isOpChar c = true) :
    exprLoop (fuel + 1) r ⟨text, s, tok⟩ =
      match tokenAt text (s + 1) with
      | Except.error e => Except.error (e, ⟨text, s + 1, tok⟩)
      | Except.ok t1 =>
        match term (text.length + 1) ⟨text, s + 1, t1⟩ with
        | Except.error e => Except.error e
        | Except.ok (v, c2) =>
          match specApplyOp c r v with
          | Except.error e => Except.error (e, c2)
          | Except.ok r' => exprLoop fuel r' c2 := by
  simp only [exprLoop]
  rw [if_pos hty, eat_eq, if_pos hty, hval]
  cases h1 : tokenAt text (s + 1) with
  | error e => rfl
  | ok t1 =>
    simp only
    unfold isOpChar at hop
    simp only [Bool.or_eq_true, decide_eq_true_eq] at hop
    rcases hop with ((hc | hc) | hc) | hc
    · subst hc
      cases term (text.length + 1) ⟨text, s + 1, t1⟩ with
      | error e => rfl
      | ok p =>
        obtain ⟨v, c2⟩ := p
        simp only
        cases happ : specApplyOp '+' r v with
        | ok a =>
          have happ2 : checked_i32 (r + v) = Except.ok a := happ
          rw [happ2]
          rfl
        | error e =>
          have happ2 : checked_i32 (r + v) = Except.error e := happ
          rw [happ2]
          rfl
    · subst hc
      cases term (text.length + 1) ⟨text, s + 1, t1⟩ with
      | error e => rfl
      | ok p =>
        obtain ⟨v, c2⟩ := p
        simp only
        cases happ : specApplyOp '-' r v with
        | ok a =>
          have happ2 : checked_i32 (r - v) = Except.ok a := happ
          rw [happ2]
          rfl
        | error e =>
          have happ2 : checked_i32 (r - v) = Except.error e := happ
          rw [happ2]
          rfl
    · subst hc
      cases term (text.length + 1) ⟨text, s + 1, t1⟩ with
      | error e => rfl
      | ok p =>
        obtain ⟨v, c2⟩ := p
        simp only
        cases happ : specApplyOp '/' r v with
        | ok a =>
          have happ2 : div_i32 r v = Except.ok a := happ
          rw [happ2]
          rfl
        | error e =>
          have happ2 : div_i32 r v = Except.error e := happ
          rw [happ2]
          rfl
    · subst hc
      cases term (text.length + 1) ⟨text, s + 1, t1⟩ with
      | error e => rfl
      | ok p =>
        obtain ⟨v, c2⟩ := p
        simp only
        cases happ : specApplyOp '*' r v with
        | ok a =>
          have happ2 : checked_i32 (r * v) = Except.ok a := happ
          rw [happ2]
          rfl
        | error e =>
          have happ2 : checked_i32 (r * v) = Except.error e := happ
          rw [happ2]
          rfl

theorem encodePairs_length_ge (ps : List (Char × String)) :
    ps.length ≤ (encodePairs ps).length := by
  induction ps with
  | nil => simp
  | cons p ps ih =>
    obtain ⟨c, t⟩ := p
    simp only [encodePairs, List.length_cons, List.length_append]
    omega

theorem exprLoop_encode (ps : List (Char × String)) :
    ∀ (fuel : Nat) (r : Int) (text : List Char) (s : Nat) (tok : Token),
      (∀ p ∈ ps, isOpChar p.1 = true ∧ isDigitStr p.2 = true) →
      text.drop s = encodePairs ps →
      text.length ≠ 0 →
      tokenAt text s = Except.ok tok →
      ps.length + 1 ≤ fuel →
      runResult (exprLoop fuel r ⟨text, s, tok⟩) = specFoldGo r ps := by
  induction ps with
  | nil =>
    intro fuel r text s tok hwf hdrop hne htok hfuel
    have : tokenAt text s = Except.ok EOF_TOKEN := tokenAt_of_drop_nil hne hdrop
    rw [htok, Except.ok.injEq] at this
    subst this
    cases fuel with
    | zero => omega
    | succ fuel =>
      simp only [exprLoop]
      rw [if_neg (by simp [EOF_TOKEN])]
      rfl
  | cons p ps ih =>
    intro fuel r text s tok hwf hdrop hne htok hfuel
    obtain ⟨c, t⟩ := p
    obtain ⟨hopc, hdig⟩ := hwf (c, t) (by simp)
    simp only [encodePairs] at hdrop
    have htokv : tok = { token_type := TokenType.Op, value := c.toString } := by
      have := tokenAt_of_drop_cons hdrop
      rw [classifyChar_op hopc, htok, Except.ok.injEq] at this
      exact this
    have hdrop1 : text.drop (s + 1) = t.data ++ encodePairs ps := drop_succ_of_drop_cons hdrop
    have hdrop2 : text.drop (s + 1 + t.data.length) = encodePairs ps :=
      drop_of_drop_append t.data hdrop1
    unfold isDigitStr at hdig
    simp only [Bool.and_eq_true, Bool.not_eq_true'] at hdig
    obtain ⟨htne, htall⟩ := hdig
    -- the token at the start of the term's digits
    obtain ⟨d, ds, htd⟩ : ∃ d ds, t.data = d :: ds := by
      cases htd : t.data with
      | nil =>
        rw [htd] at htne
        exact absurd htne (by simp)
      | cons d ds => exact ⟨d, ds, rfl⟩
    have hd : d.isDigit = true := by
      rw [htd, List.all_cons, Bool.and_eq_true] at htall
      exact htall.1
    have ht1 : tokenAt text (s + 1) =
        Except.ok { token_type := TokenType.Int, value := d.toString } := by
      rw [htd, List.cons_append] at hdrop1
      rw [tokenAt_of_drop_cons hdrop1]
      exact classifyChar_digit hd
    -- the token after the term's digits
    obtain ⟨tstop, htstop, hstopni⟩ :
        ∃ tstop, tokenAt text (s + 1 + t.data.length) = Except.ok tstop ∧
          tstop.token_type ≠ TokenType.Int := by
      cases hps : ps with
      | nil =>
        rw [hps] at hdrop2
        simp only [encodePairs] at hdrop2
        exact ⟨EOF_TOKEN, tokenAt_of_drop_nil hne hdrop2, by simp [EOF_TOKEN]⟩
      | cons p' ps' =>
        obtain ⟨c', t'⟩ := p'
        have hopc' : isOpChar c' = true := (hwf (c', t') (by simp [hps])).1
        rw [hps] at hdrop2
        simp only [encodePairs] at hdrop2
        refine ⟨{ token_type := TokenType.Op, value := c'.toString },
          ?_, by simp⟩
        rw [tokenAt_of_drop_cons hdrop2]
        exact classifyChar_op hopc'
    have hlen : t.data.length ≤ text.length := by
      have h1 := List.length_drop (s + 1) text
      rw [hdrop1] at h1
      simp only [List.length_append] at h1
      omega
    have hterm := @term_digits t.data text (encodePairs ps) (s + 1) (text.length + 1)
      { token_type := TokenType.Int, value := d.toString } tstop
      htall hdrop1 ht1 (by simp) htstop hstopni (by omega)
    cases fuel with
    | zero => simp only [List.length_cons] at hfuel; omega
    | succ fuel =>
      rw [exprLoop_step fuel r text s (by rw [htokv]) (by rw [htokv]) hopc, ht1]
      simp only
      have hmk : String.mk t.data = t := string_mk_data t
      rw [hmk] at hterm
      rw [hterm]
      simp only [specFoldGo]
      cases hparse : parse_i32 t with
      | error e => rfl
      | ok v =>
        simp only
        cases happ : specApplyOp c r v with
        | error e => rfl
        | ok r' =>
          simp only
          exact ih fuel r' text (s + 1 + t.data.length) tstop
            (fun p hp => hwf p (by simp [hp]))
            hdrop2 hne htstop
            (by simp only [List.length_cons] at hfuel; omega)

/-! ## Progress: evaluation never exhausts fuel and never reaches the
mismatch branch of `eat` -/

theorem parse_i32_error {buffer : String} {e : Err}
    (h : parse_i32 buffer = Except.error e) : e = Err.intParseError := by
  unfold parse_i32 at h
  split at h
  · exact absurd h (by simp)
  · rw [Except.error.injEq] at h
    exact h.symm

theorem checked_i32_error {n : Int} {e : Err}
    (h : checked_i32 n = Except.error e) : e = Err.overflow := by
  unfold checked_i32 at h
  split at h
  · exact absurd h (by simp)
  · rw [Except.error.injEq] at h
    exact h.symm

theorem div_i32_error {a b : Int} {e : Err}
    (h : div_i32 a b = Except.error e) : e = Err.divByZero ∨ e = Err.overflow := by
  unfold div_i32 at h
  split at h
  · rw [Except.error.injEq] at h
    exact Or.inl h.symm
  · exact Or.inr (checked_i32_error h)

theorem specApplyOp_error {c : Char} {r v : Int} {e : Err}
    (h : specApplyOp c r v = Except.error e) : GoodErr e := by
  unfold specApplyOp at h
  split_ifs at h
  · rw [checked_i32_error h]
    exact ⟨rfl, rfl⟩
  · rw [checked_i32_error h]
    exact ⟨rfl, rfl⟩
  · rcases div_i32_error h with he | he <;> rw [he] <;> exact ⟨rfl, rfl⟩
  · rw [checked_i32_error h]
    exact ⟨rfl, rfl⟩
  · rw [Except.error.injEq] at h
    rw [← h]
    exact ⟨rfl, rfl⟩

theorem tokenAt_error_good {text : List Char} {i : Nat} {e : Err}
    (h : tokenAt text i = Except.error e) : GoodErr e := by
  rcases tokenAt_error h with he | he <;> subst he <;> exact ⟨rfl, rfl⟩

theorem eat_intAux_progress :
    ∀ (fuel : Nat) (text : List Char) (s : Nat) (tok : Token) (buffer : String),
      tokenAt text s = Except.ok tok → s ≤ text.length →
      text.length + 1 - s ≤ fuel →
      match eat_intAux fuel ⟨text, s, tok⟩ buffer with
      | Except.ok (_, c') => c'.text = text ∧
          tokenAt text c'.cursor = Except.ok c'.current_token ∧
          s ≤ c'.cursor ∧ c'.cursor ≤ text.length
      | Except.error (e, _) => GoodErr e := by
  intro fuel
  induction fuel with
  | zero =>
    intro text s tok buffer htok hs hfuel
    omega
  | succ fuel ih =>
    intro text s tok buffer htok hs hfuel
    simp only [eat_intAux]
    by_cases hty : tok.token_type = TokenType.Int
    · rw [if_pos hty, eat_eq, if_pos hty]
      obtain ⟨d, rest, hdrop, hd, htokv⟩ := tokenAt_int_char htok hty
      have hlt : s < text.length := lt_length_of_drop_cons hdrop
      cases h1 : tokenAt text (s + 1) with
      | error e =>
        simp only
        exact tokenAt_error_good h1
      | ok t1 =>
        simp only
        have := ih text (s + 1) t1 (buffer ++ tok.value) h1 (by omega) (by omega)
        cases hres : eat_intAux fuel ⟨text, s + 1, t1⟩ (buffer ++ tok.value) with
        | ok p =>
          rw [hres] at this
          obtain ⟨b', c'⟩ := p
          exact ⟨this.1, this.2.1, Nat.le_of_succ_le this.2.2.1, this.2.2.2⟩
        | error q =>
          rw [hres] at this
          obtain ⟨e, cq⟩ := q
          exact this
    · rw [if_neg hty]
      exact ⟨rfl, htok, Nat.le_refl s, hs⟩

theorem eat_int_progress (fuel : Nat) (text : List Char) (s : Nat) (tok : Token)
    (htok : tokenAt text s = Except.ok tok) (hs : s ≤ text.length)
    (hfuel : text.length + 1 - s ≤ fuel) :
    match eat_int fuel ⟨text, s, tok⟩ with
    | Except.ok (_, c') => c'.text = text ∧
        tokenAt text c'.cursor = Except.ok c'.current_token ∧
        s ≤ c'.cursor ∧ c'.cursor ≤ text.length
    | Except.error (e, _) => GoodErr e := by
  unfold eat_int
  have haux := eat_intAux_progress fuel text s tok "" htok hs hfuel
  cases hres : eat_intAux fuel ⟨text, s, tok⟩ "" with
  | error q =>
    rw [hres] at haux
    obtain ⟨e, cq⟩ := q
    exact haux
  | ok p =>
    rw [hres] at haux
    obtain ⟨buffer, c1⟩ := p
    simp only
    cases hp : parse_i32 buffer with
    | ok v => exact haux
    | error e =>
      simp only
      rw [parse_i32_error hp]
      exact ⟨rfl, rfl⟩

theorem eat_whitespace_progress :
    ∀ (fuel : Nat) (text : List Char) (s : Nat) (tok : Token),
      tokenAt text s = Except.ok tok → s ≤ text.length →
      text.length + 1 - s ≤ fuel →
      match eat_whitespace fuel ⟨text, s, tok⟩ with
      | Except.ok c' => c'.text = text ∧
          tokenAt text c'.cursor = Except.ok c'.current_token ∧
          s ≤ c'.cursor ∧ c'.cursor ≤ text.length
      | Except.error (e, _) => GoodErr e := by
  intro fuel
  induction fuel with
  | zero =>
    intro text s tok htok hs hfuel
    omega
  | succ fuel ih =>
    intro text s tok htok hs hfuel
    simp only [eat_whitespace]
    by_cases hty : tok.token_type = TokenType.SPC
    · rw [if_pos hty, eat_eq, if_pos hty]
      obtain ⟨w, rest, hdrop, hw, htokv⟩ := tokenAt_spc_char htok hty
      have hlt : s < text.length := lt_length_of_drop_cons hdrop
      cases h1 : tokenAt text (s + 1) with
      | error e =>
        simp only
        exact tokenAt_error_good h1
      | ok t1 =>
        simp only
        rw [look_ahead_eq]
        cases h2 : tokenAt text (s + 1 + 1) with
        | error e =>
          simp only
          exact tokenAt_error_good h2
        | ok a =>
          simp only
          by_cases ha : a.token_type = TokenType.SPC
          · rw [if_pos ha]
            have := ih text (s + 1) t1 h1 (by omega) (by omega)
            cases hres : eat_whitespace fuel ⟨text, s + 1, t1⟩ with
            | ok c' =>
              rw [hres] at this
              exact ⟨this.1, this.2.1, Nat.le_of_succ_le this.2.2.1, this.2.2.2⟩
            | error q =>
              rw [hres] at this
              obtain ⟨e, cq⟩ := q
              exact this
          · rw [if_neg ha]
            exact ⟨rfl, h1, Nat.le_succ s, hlt⟩
    · rw [if_neg hty]
      exact ⟨rfl, htok, Nat.le_refl s, hs⟩

theorem term_progress (fuel : Nat) (text : List Char) (s : Nat) (tok : Token)
    (htok : tokenAt text s = Except.ok tok) (hs : s ≤ text.length)
    (hfuel : text.length + 1 - s ≤ fuel) :
    match term fuel ⟨text, s, tok⟩ with
    | Except.ok (_, c') => c'.text = text ∧
        tokenAt text c'.cursor = Except.ok c'.current_token ∧
        s ≤ c'.cursor ∧ c'.cursor ≤ text.length
    | Except.error (e, _) => GoodErr e := by
  unfold term
  have hws := eat_whitespace_progress fuel text s tok htok hs hfuel
  cases hres : eat_whitespace fuel ⟨text, s, tok⟩ with
  | error q =>
    rw [hres] at hws
    obtain ⟨e, cq⟩ := q
    exact hws
  | ok c1 =>
    rw [hres] at hws
    obtain ⟨text1, s1, tok1⟩ := c1
    obtain ⟨hteq, hsync, hs1, hle1⟩ := hws
    simp only at hteq hsync hs1 hle1
    simp only
    rw [hteq]
    have hint := eat_int_progress fuel text s1 tok1 hsync hle1 (by omega)
    cases hres2 : eat_int fuel ⟨text, s1, tok1⟩ with
    | error q =>
      rw [hres2] at hint
      obtain ⟨e, cq⟩ := q
      exact hint
    | ok p =>
      rw [hres2] at hint
      obtain ⟨v, c2⟩ := p
      exact ⟨hint.1, hint.2.1, Nat.le_trans hs1 hint.2.2.1, hint.2.2.2⟩

theorem expr_eq (text : List Char) (s : Nat) (tok : Token) :
    expr ⟨text, s, tok⟩ =
      match tokenAt text s with
      | Except.error e => Except.error (e, ⟨text, s, tok⟩)
      | Except.ok t =>
        match term (text.length + 1) ⟨text, s, t⟩ with
        | Except.error e => Except.error e
        | Except.ok (r, c1) => exprLoop (c1.text.length + 1) r c1 := by
  unfold expr
  rw [get_next_token_eq_tokenAt]

theorem exprLoop_progress :
    ∀ (fuel : Nat) (r : Int) (text : List Char) (s : Nat) (tok : Token),
      tokenAt text s = Except.ok tok → s ≤ text.length →
      text.length + 1 - s ≤ fuel →
      match exprLoop fuel r ⟨text, s, tok⟩ with
      | Except.ok _ => True
      | Except.error (e, _) => GoodErr e := by
  intro fuel
  induction fuel with
  | zero =>
    intro r text s tok htok hs hfuel
    omega
  | succ fuel ih =>
    intro r text s tok htok hs hfuel
    by_cases hty : tok.token_type = TokenType.Op
    · obtain ⟨c, rest, hdrop, hopc, htokv⟩ := tokenAt_op_char htok hty
      have hlt : s < text.length := lt_length_of_drop_cons hdrop
      rw [exprLoop_step fuel r text s hty (by rw [htokv]) hopc]
      cases h1 : tokenAt text (s + 1) with
      | error e =>
        simp only
        exact tokenAt_error_good h1
      | ok t1 =>
        simp only
        have hterm := term_progress (text.length + 1) text (s + 1) t1 h1 (by omega) (by omega)
        cases hres : term (text.length + 1) ⟨text, s + 1, t1⟩ with
        | error q =>
          rw [hres] at hterm
          obtain ⟨e, cq⟩ := q
          exact hterm
        | ok p =>
          rw [hres] at hterm
          obtain ⟨v, c2⟩ := p
          simp only
          obtain ⟨text2, s2, tok2⟩ := c2
          obtain ⟨hteq, hsync, hs2, hle2⟩ := hterm
          simp only at hteq hsync hs2 hle2
          rw [hteq]
          cases happ : specApplyOp c r v with
          | error e =>
            simp only
            exact specApplyOp_error happ
          | ok r' =>
            simp only
            exact ih r' text s2 tok2 hsync hle2 (by omega)
    · simp only [exprLoop]
      rw [if_neg hty]
      trivial

theorem expr_progress (text : List Char) (tok : Token) :
    match expr ⟨text, 0, tok⟩ with
    | Except.ok _ => True
    | Except.error (e, _) => GoodErr e := by
  rw [expr_eq]
  cases h0 : tokenAt text 0 with
  | error e =>
    simp only
    exact tokenAt_error_good h0
  | ok t =>
    simp only
    have hterm := term_progress (text.length + 1) text 0 t h0 (by omega) (by omega)
    cases hres : term (text.length + 1) ⟨text, 0, t⟩ with
    | error q =>
      rw [hres] at hterm
      obtain ⟨e, cq⟩ := q
      exact hterm
    | ok p =>
      rw [hres] at hterm
      obtain ⟨r, c1⟩ := p
      obtain ⟨text1, s1, tok1⟩ := c1
      obtain ⟨hteq, hsync, hs1, hle1⟩ := hterm
      simp only at hteq hsync hs1 hle1
      simp only
      rw [hteq]
      have hloop := exprLoop_progress (text.length + 1) r text s1 tok1 hsync hle1 (by omega)
      cases hres2 : exprLoop (text.length + 1) r ⟨text, s1, tok1⟩ with
      | ok p2 => trivial
      | error q =>
        rw [hres2] at hloop
        obtain ⟨e, cq⟩ := q
        exact hloop

/-! ## Assembly lemmas for the left-fold law -/

theorem encode_head_token {text : List Char} {i : Nat} (ps : List (Char × String))
    (hwf : ∀ p ∈ ps, isOpChar p.1 = true ∧ isDigitStr p.2 = true)
    (hdrop : text.drop i = encodePairs ps) (hne : text.length ≠ 0) :
    ∃ tstop, tokenAt text i = Except.ok tstop ∧ tstop.token_type ≠ TokenType.Int := by
  cases ps with
  | nil =>
    simp only [encodePairs] at hdrop
    exact ⟨EOF_TOKEN, tokenAt_of_drop_nil hne hdrop, by simp [EOF_TOKEN]⟩
  | cons p' ps' =>
    obtain ⟨c', t'⟩ := p'
    have hopc' : isOpChar c' = true := (hwf (c', t') (by simp)).1
    simp only [encodePairs] at hdrop
    refine ⟨{ token_type := TokenType.Op, value := c'.toString }, ?_, by simp⟩
    rw [tokenAt_of_drop_cons hdrop]
    exact classifyChar_op hopc'

/-! ## `eat_whitespace` on whitespace runs -/

theorem eat_whitespace_run1 {text rest : List Char} {s fuel : Nat} {tok t1 t2 : Token}
    {w : Char}
    (hw : rustIsWhitespace w = true)
    (hdrop : text.drop s = w :: rest)
    (htok : tokenAt text s = Except.ok tok)
    (ht1 : tokenAt text (s + 1) = Except.ok t1)
    (hns : t1.token_type ≠ TokenType.SPC)
    (ht2 : tokenAt text (s + 1 + 1) = Except.ok t2)
    (hfuel : 2 ≤ fuel) :
    eat_whitespace fuel ⟨text, s, tok⟩ = Except.ok ⟨text, s + 1, t1⟩ := by
  have htokv : tok = { token_type := TokenType.SPC, value := "SPC" } := by
    have := tokenAt_of_drop_cons hdrop
    rw [classifyChar_ws hw, htok, Except.ok.injEq] at this
    exact this
  cases fuel with
  | zero => omega
  | succ fuel =>
    simp only [eat_whitespace]
    rw [if_pos (by rw [htokv]), eat_eq, if_pos (by rw [htokv]), ht1]
    simp only
    rw [look_ahead_eq, ht2]
    simp only
    by_cases h2 : t2.token_type = TokenType.SPC
    · rw [if_pos h2]
      exact eat_whitespace_noop (by omega) hns
    · rw [if_neg h2]

theorem eat_whitespace_run_ge2 (ws : List Char) :
    ∀ (w1 w2 : Char) (fuel s : Nat) (text rest : List Char) (tok tstop : Token),
      rustIsWhitespace w1 = true → rustIsWhitespace w2 = true →
      ws.all rustIsWhitespace = true →
      text.drop s = w1 :: w2 :: (ws ++ rest) →
      tokenAt text s = Except.ok tok →
      tokenAt text (s + (ws.length + 2)) = Except.ok tstop →
      tstop.token_type ≠ TokenType.SPC →
      ws.length + 2 ≤ fuel →
      eat_whitespace fuel ⟨text, s, tok⟩ =
        Except.ok ⟨text, s + ws.length + 1,
          { token_type := TokenType.SPC, value := "SPC" }⟩ := by
  induction ws with
  | nil =>
    intro w1 w2 fuel s text rest tok tstop hw1 hw2 _ hdrop htok htstop hns hfuel
    have htokv : tok = { token_type := TokenType.SPC, value := "SPC" } := by
      have := tokenAt_of_drop_cons hdrop
      rw [classifyChar_ws hw1, htok, Except.ok.injEq] at this
      exact this
    have hdrop1 : text.drop (s + 1) = w2 :: rest := by
      simpa using drop_succ_of_drop_cons hdrop
    have ht1 : tokenAt text (s + 1) =
        Except.ok { token_type := TokenType.SPC, value := "SPC" } := by
      rw [tokenAt_of_drop_cons hdrop1]
      exact classifyChar_ws hw2
    have htstop2 : tokenAt text (s + 1 + 1) = Except.ok tstop := by
      have harith : s + (List.length ([] : List Char) + 2) = s + 1 + 1 := by
        simp
      rw [harith] at htstop
      exact htstop
    cases fuel with
    | zero => omega
    | succ fuel =>
      simp only [eat_whitespace]
      rw [if_pos (by rw [htokv]), eat_eq, if_pos (by rw [htokv]), ht1]
      simp only
      rw [look_ahead_eq, htstop2]
      simp only
      rw [if_neg hns]
      rfl
  | cons w3 ws ih =>
    intro w1 w2 fuel s text rest tok tstop hw1 hw2 hall hdrop htok htstop hns hfuel
    simp only [List.all_cons, Bool.and_eq_true] at hall
    obtain ⟨hw3, hall⟩ := hall
    have htokv : tok = { token_type := TokenType.SPC, value := "SPC" } := by
      have := tokenAt_of_drop_cons hdrop
      rw [classifyChar_ws hw1, htok, Except.ok.injEq] at this
      exact this
    have hdrop1 : text.drop (s + 1) = w2 :: w3 :: (ws ++ rest) := by
      simpa using drop_succ_of_drop_cons hdrop
    have hdrop2 : text.drop (s + 1 + 1) = w3 :: (ws ++ rest) :=
      drop_succ_of_drop_cons hdrop1
    have ht1 : tokenAt text (s + 1) =
        Except.ok { token_type := TokenType.SPC, value := "SPC" } := by
      rw [tokenAt_of_drop_cons hdrop1]
      exact classifyChar_ws hw2
    have ht2 : tokenAt text (s + 1 + 1) =
        Except.ok { token_type := TokenType.SPC, value := "SPC" } := by
      rw [tokenAt_of_drop_cons hdrop2]
      exact classifyChar_ws hw3
    have htstop' : tokenAt text (s + 1 + (ws.length + 2)) = Except.ok tstop := by
      have harith : s + (List.length (w3 :: ws) + 2) = s + 1 + (ws.length + 2) := by
        simp only [List.length_cons]
        omega
      rw [harith] at htstop
      exact htstop
    cases fuel with
    | zero => omega
    | succ fuel =>
      simp only [eat_whitespace]
      rw [if_pos (by rw [htokv]), eat_eq, if_pos (by rw [htokv]), ht1]
      simp only
      rw [look_ahead_eq, ht2]
      simp only
      rw [ih w2 w3 fuel (s + 1) text rest _ tstop hw2 hw3 hall hdrop1 ht1 htstop' hns
        (by simp only [List.length_cons] at hfuel; omega)]
      simp only [List.length_cons]
      rw [show s + 1 + ws.length + 1 = s + (ws.length + 1) + 1 from by omega]
      simp

/-! ## Tokenizer at end of input (nonempty text) -/

theorem get_next_token_eof {ctx : Context} (hne : ctx.text.length ≠ 0)
    (hpast : ctx.text.length ≤ ctx.cursor) :
    get_next_token ctx = Except.ok EOF_TOKEN := by
  unfold get_next_token
  rw [if_neg hne, if_pos (by omega)]

/-! ## Claims -/

/-- C1: the claim (and the repository's own tests `test_sum`, `test_sub`,
`test_div`, `test_mul`) says `evaluate("145 + 33") == 178`,
`evaluate("178 - 33") == 145`, `evaluate("44 / 4") == 11`,
`evaluate("145 * 33") == 4785`.  The code disagrees: after the first
term is parsed the current token is the whitespace before the operator,
and `expr`'s `while` loop only continues on an `Op` token, so each of
these evaluations returns just the first term.  This theorem records the
code's actual value at each of the claim's four inputs. -/
theorem claim_C1_code_behavior :
    evaluate "145 + 33" = Except.ok 145 ∧
    evaluate "178 - 33" = Except.ok 178 ∧
    evaluate "44 / 4" = Except.ok 44 ∧
    evaluate "145 * 33" = Except.ok 145 :=
  ⟨rfl, rfl, rfl, rfl⟩

/-- C2: whitespace insensitivity fails on the code: `evaluate("145+33")`
is `178` but `evaluate(" 145   +   33 ")` is `145` — the run of spaces
after the first term is never consumed, so the operator loop exits. -/
theorem claim_C2_code_behavior :
    evaluate "145+33" = Except.ok 178 ∧
    evaluate " 145   +   33 " = Except.ok 145 ∧
    (178 : Int) ≠ 145 :=
  ⟨rfl, rfl, by decide⟩

/-- C3: for every sequence of digit-string terms `t0 … tn` and operator
characters `op1 … opn`, evaluating their concatenation
`t0 op1 t1 … opn tn` (no whitespace) equals the strict left fold
`(((t0 op1 t1) op2 t2) … opn tn)` over checked 32-bit integers, with no
operator precedence; both sides agree on the error cases too (term out
of `i32` range, overflow, division by zero). -/
theorem claim_C3_left_fold (t0 : String) (ps : List (Char × String))
    (h0 : isDigitStr t0 = true)
    (hps : ∀ p ∈ ps, isOpChar p.1 = true ∧ isDigitStr p.2 = true) :
    evaluate (mkExpr t0 ps) = specFold t0 ps := by
  unfold isDigitStr at h0
  simp only [Bool.and_eq_true, Bool.not_eq_true'] at h0
  obtain ⟨h0ne, h0all⟩ := h0
  obtain ⟨d, ds, htd⟩ : ∃ d ds, t0.data = d :: ds := by
    cases htd : t0.data with
    | nil =>
      rw [htd] at h0ne
      exact absurd h0ne (by simp)
    | cons d ds => exact ⟨d, ds, rfl⟩
  have hd : d.isDigit = true := by
    have h2 := h0all
    rw [htd, List.all_cons, Bool.and_eq_true] at h2
    exact h2.1
  have hctx : Context.new (mkExpr t0 ps) =
      (⟨t0.data ++ encodePairs ps, 0, NOP_TOKEN⟩ : Context) := rfl
  have hne : (t0.data ++ encodePairs ps).length ≠ 0 := by
    rw [htd]
    simp
  have hdrop0 : (t0.data ++ encodePairs ps).drop 0 = t0.data ++ encodePairs ps := by
    simp
  have hdropt : (t0.data ++ encodePairs ps).drop (0 + t0.data.length) = encodePairs ps :=
    drop_of_drop_append t0.data hdrop0
  obtain ⟨tstop, htstop, hstopni⟩ := encode_head_token ps hps hdropt hne
  have ht0 : tokenAt (t0.data ++ encodePairs ps) 0 =
      Except.ok { token_type := TokenType.Int, value := d.toString } := by
    have hdc : (t0.data ++ encodePairs ps).drop 0 = d :: (ds ++ encodePairs ps) := by
      rw [hdrop0, htd]
      simp
    rw [tokenAt_of_drop_cons hdc]
    exact classifyChar_digit hd
  have hterm := @term_digits t0.data (t0.data ++ encodePairs ps) (encodePairs ps) 0
      ((t0.data ++ encodePairs ps).length + 1)
      { token_type := TokenType.Int, value := d.toString } tstop
      h0all hdrop0 ht0 (by simp) htstop hstopni
      (by simp only [List.length_append]; omega)
  unfold evaluate
  rw [hctx, expr_eq, ht0]
  simp only
  have hmk : String.mk t0.data = t0 := string_mk_data t0
  rw [hmk] at hterm
  rw [hterm]
  unfold specFold
  cases hparse : parse_i32 t0 with
  | error e => rfl
  | ok v0 =>
    simp only
    exact exprLoop_encode ps ((t0.data ++ encodePairs ps).length + 1) v0
      (t0.data ++ encodePairs ps) (0 + t0.data.length) tstop hps hdropt hne htstop
      (by
        have h1 := encodePairs_length_ge ps
        simp only [List.length_append]
        omega)

/-- C3 witness: the claim's own example — `"2+3*4"` evaluates to `20`
(`(2+3)*4`, not `2+3*4 = 14` with precedence). -/
theorem claim_C3_witness :
    evaluate (mkExpr "2" [('+', "3"), ('*', "4")]) =
      specFold "2" [('+', "3"), ('*', "4")] ∧
    evaluate (mkExpr "2" [('+', "3"), ('*', "4")]) = Except.ok 20 ∧
    mkExpr "2" [('+', "3"), ('*', "4")] = "2+3*4" :=
  ⟨claim_C3_left_fold "2" [('+', "3"), ('*', "4")] (by decide) (by decide), rfl, rfl⟩

/-- C4 counterexample: on text `"  5"` (a whitespace run of length 2),
called with the cursor at 0 and the Whitespace token current (the synced
state), `eat_whitespace` returns with the cursor on the second space and
`current_token` still the Whitespace token: the run is NOT fully
consumed and `current_token` is NOT the first non-whitespace token
(which is the digit token at index 2). -/
theorem claim_C4_counterexample :
    eat_whitespace 4 ⟨"  5".data, 0, { token_type := TokenType.SPC, value := "SPC" }⟩ =
      Except.ok ⟨"  5".data, 1, { token_type := TokenType.SPC, value := "SPC" }⟩ ∧
    tokenAt "  5".data 1 = Except.ok { token_type := TokenType.SPC, value := "SPC" } ∧
    tokenAt "  5".data 2 = Except.ok { token_type := TokenType.Int, value := "5" } ∧
    ({ token_type := TokenType.SPC, value := "SPC" } : Token) ≠
      { token_type := TokenType.Int, value := "5" } :=
  ⟨rfl, rfl, rfl, by decide⟩

/-- C4 (amended): (1) when the current token is not Whitespace,
`eat_whitespace` changes nothing; (2) when the current token is
Whitespace and the maximal whitespace run at the cursor has length
exactly 1 (and the scans one and two positions ahead classify), the run
is consumed and `current_token` becomes the first non-whitespace token,
as the claim says; but (3) for a run of length k ≥ 2 followed by a
non-whitespace scan, only k − 1 whitespace tokens are consumed: the
look-ahead check peeks one character past the newly current token, so
the cursor stops on the run's last whitespace character with
`current_token` still the Whitespace token. -/
theorem claim_C4_amended :
    (∀ (fuel : Nat) (ctx : Context), 1 ≤ fuel →
      ctx.current_token.token_type ≠ TokenType.SPC →
      eat_whitespace fuel ctx = Except.ok ctx) ∧
    (∀ (text rest : List Char) (s fuel : Nat) (tok t1 t2 : Token) (w : Char),
      rustIsWhitespace w = true →
      text.drop s = w :: rest →
      tokenAt text s = Except.ok tok →
      tokenAt text (s + 1) = Except.ok t1 →
      t1.token_type ≠ TokenType.SPC →
      tokenAt text (s + 1 + 1) = Except.ok t2 →
      2 ≤ fuel →
      eat_whitespace fuel ⟨text, s, tok⟩ = Except.ok ⟨text, s + 1, t1⟩) ∧
    (∀ (ws : List Char) (w1 w2 : Char) (fuel s : Nat) (text rest : List Char)
      (tok tstop : Token),
      rustIsWhitespace w1 = true → rustIsWhitespace w2 = true →
      ws.all rustIsWhitespace = true →
      text.drop s = w1 :: w2 :: (ws ++ rest) →
      tokenAt text s = Except.ok tok →
      tokenAt text (s + (ws.length + 2)) = Except.ok tstop →
      tstop.token_type ≠ TokenType.SPC →
      ws.length + 2 ≤ fuel →
      eat_whitespace fuel ⟨text, s, tok⟩ =
        Except.ok ⟨text, s + ws.length + 1,
          { token_type := TokenType.SPC, value := "SPC" }⟩) :=
  ⟨fun _ _ h1 h2 => eat_whitespace_noop h1 h2,
   fun _ _ _ _ _ _ _ _ hw hdrop htok ht1 hns ht2 hfuel =>
     eat_whitespace_run1 hw hdrop htok ht1 hns ht2 hfuel,
   eat_whitespace_run_ge2⟩

/-- C4 witness: the k ≥ 2 part of the amended claim at the concrete
input `"  5"` (run of two spaces): one space is consumed, the other
remains, with `current_token` still Whitespace. -/
theorem claim_C4_witness :
    eat_whitespace 2 ⟨"  5".data, 0, { token_type := TokenType.SPC, value := "SPC" }⟩ =
      Except.ok ⟨"  5".data, 1, { token_type := TokenType.SPC, value := "SPC" }⟩ :=
  claim_C4_amended.2.2 [] ' ' ' ' 2 0 "  5".data ['5']
    { token_type := TokenType.SPC, value := "SPC" }
    { token_type := TokenType.Int, value := "5" }
    (by decide) (by decide) (by decide) rfl rfl rfl (by decide) (by decide)

/-- C5 counterexample: on empty text the tokenizer does not produce an
End-of-input token: `text.len() - 1` underflows `usize` in the bounds
check (debug: arithmetic panic; release: the wrapped bound makes the
guard false and `text[cursor]` is an out-of-bounds panic) — modelled as
the `lenUnderflow` error. -/
theorem claim_C5_counterexample :
    get_next_token (Context.new "") = Except.error Err.lenUnderflow := rfl

/-- C5 (amended): for every Context with nonempty text whose cursor is
at or past the end of the text, `get_next_token` produces the
End-of-input token rather than failing; the empty-text case, contrary to
the claim, panics (see the counterexample). -/
theorem claim_C5_amended (ctx : Context) (hne : ctx.text.length ≠ 0)
    (hpast : ctx.text.length ≤ ctx.cursor) :
    get_next_token ctx = Except.ok EOF_TOKEN :=
  get_next_token_eof hne hpast

/-- C5 witness: a nonempty text with the cursor past the end yields the
EOF token. -/
theorem claim_C5_witness :
    get_next_token ⟨"1".data, 5, NOP_TOKEN⟩ = Except.ok EOF_TOKEN :=
  claim_C5_amended ⟨"1".data, 5, NOP_TOKEN⟩ (by decide) (by decide)

/-- C6 counterexample: when classification of the peeked character
fails, `look_ahead` does NOT restore the cursor: on text `"1$"` with
cursor 0, `look_ahead 1` panics classifying `'$'` and the state at the
panic has cursor 1, not the original 0. -/
theorem claim_C6_counterexample :
    look_ahead ⟨"1$".data, 0, NOP_TOKEN⟩ 1 =
      Except.error (Err.parseError, ⟨"1$".data, 1, NOP_TOKEN⟩) ∧
    (1 : Nat) ≠ 0 :=
  ⟨rfl, by decide⟩

/-- C6 (amended): whenever `look_ahead` RETURNS (i.e. classification of
the peeked character succeeds), the context is returned unchanged —
cursor restored, text and `current_token` untouched — and the returned
token is the scan at `cursor + by`.  When classification fails the call
panics and the cursor is left advanced (see the counterexample). -/
theorem claim_C6_amended (ctx : Context) (by_ : Nat) (t : Token) (c' : Context)
    (h : look_ahead ctx by_ = Except.ok (t, c')) :
    c' = ctx ∧ tokenAt ctx.text (ctx.cursor + by_) = Except.ok t :=
  look_ahead_ok_state h

/-- C6 witness: a successful lookahead on `"12"` returns the digit token
at index 1 and the untouched context. -/
theorem claim_C6_witness :
    (⟨"12".data, 0, NOP_TOKEN⟩ : Context) = ⟨"12".data, 0, NOP_TOKEN⟩ ∧
    tokenAt "12".data (0 + 1) =
      Except.ok { token_type := TokenType.Int, value := "2" } :=
  claim_C6_amended ⟨"12".data, 0, NOP_TOKEN⟩ 1
    { token_type := TokenType.Int, value := "2" } ⟨"12".data, 0, NOP_TOKEN⟩ rfl

/-- C7: of the claim's three fatal inputs, `"12$3"` and `"+5"` do abort
(unrecognized character, empty digit buffer), but `evaluate("44 / 0")`
does NOT abort with division by zero: the whitespace before `/` ends the
operator loop (the C1 bug) and the code returns `44`. -/
theorem claim_C7_code_behavior :
    evaluate "44 / 0" = Except.ok 44 ∧
    evaluate "12$3" = Except.error Err.parseError ∧
    evaluate "+5" = Except.error Err.intParseError :=
  ⟨rfl, rfl, rfl⟩

/-- C8: evaluation of every finite input string terminates: in the fuel
embedding, the `text.length + 1` budget the entry points pass is proved
sufficient — the fuel-exhaustion outcome is unreachable, because every
loop iteration advances the cursor, which is bounded by the text
length. -/
theorem claim_C8_termination (s : String) :
    resultFlag Err.isOutOfFuel (expr (Context.new s)) = false := by
  have hC : Context.new s = (⟨s.data, 0, NOP_TOKEN⟩ : Context) := rfl
  rw [hC]
  have hp := expr_progress s.data NOP_TOKEN
  unfold resultFlag
  cases hres : expr (⟨s.data, 0, NOP_TOKEN⟩ : Context) with
  | ok p => rfl
  | error q =>
    rw [hres] at hp
    obtain ⟨e, cq⟩ := q
    exact hp.1

/-- C9: `set_text` replaces only the `text` field; `cursor` and
`current_token` hold exactly the same values after the call. -/
theorem claim_C9_set_text_frame (ctx : Context) (s : String) :
    (ctx.set_text s).cursor = ctx.cursor ∧
    (ctx.set_text s).current_token = ctx.current_token ∧
    (ctx.set_text s).text = s.data :=
  ⟨rfl, rfl, rfl⟩

/-- C10: during any evaluation started via `expr` on a fresh `Context`,
the mismatch branch of `eat` is never taken: every call site checks the
current token's kind before calling `eat` with that same kind, so the
mismatch panic (whose diagnostic would itself index out of bounds at end
of input) is unreachable for every input string. -/
theorem claim_C10_no_mismatch (s : String) :
    resultFlag Err.isMismatch (expr (Context.new s)) = false := by
  have hC : Context.new s = (⟨s.data, 0, NOP_TOKEN⟩ : Context) := rfl
  rw [hC]
  have hp := expr_progress s.data NOP_TOKEN
  unfold resultFlag
  cases hres : expr (⟨s.data, 0, NOP_TOKEN⟩ : Context) with
  | ok p => rfl
  | error q =>
    rw [hres] at hp
    obtain ⟨e, cq⟩ := q
    exact hp.2

end Luna
